import Mathlib

/-!
Shallow embedding of the layout engine of src/freq_image_gen.py: greedy
word wrapping, tracked text drawing, and the fixed-slot pill packer with
its ellipsis truncation loops.  Text is modelled as `List Char`, font
metrics as abstract width functions `List Char → Int` (the code only
consumes integer bounding-box widths and per-character advances).
-/

/-- The three-dot ellipsis appended by the truncation loops. -/
def ellipsisL : List Char := ['.', '.', '.']

/-- Pill width of a tag text: bounding-box width plus a horizontal padding of
30 on each side, as computed by the inner pill_w helper and by the single-pill
branch of generate_freq_image. -/
def pill_w (w : List Char → Int) (t : List Char) : Int := w t + 2 * 30

/-- One shrinking step of the tag truncation loops: remove the final
character, and when the result is still longer than 3 characters replace its
last three characters by the ellipsis. -/
def shrink1 (s : List Char) : List Char :=
  let s' := s.dropLast
  if 3 < s'.length then s'.dropLast.dropLast.dropLast ++ ellipsisL else s'

/-- The two-pill truncation loop of generate_freq_image, with explicit fuel
standing in for the unbounded while loop: while the pair plus the gap is over
budget, shrink the first tag when it is at least as wide as the second and
longer than 3 characters, otherwise shrink the second when it is longer than
3 characters, otherwise stop. -/
def shrink_pair (w : List Char → Int) (avail gap : Int) :
    Nat → List Char → List Char → List Char × List Char
  | 0, t0, t1 => (t0, t1)
  | Nat.succ fuel, t0, t1 =>
    if pill_w w t0 + gap + pill_w w t1 ≤ avail then (t0, t1)
    else if pill_w w t1 ≤ pill_w w t0 ∧ 3 < t0.length then
      shrink_pair w avail gap fuel (shrink1 t0) t1
    else if 3 < t1.length then
      shrink_pair w avail gap fuel t0 (shrink1 t1)
    else (t0, t1)

/-- The two-pill truncation loop run with enough fuel to reach its exit
condition (see shrink_pair_fuel_mono and shrink_pair_run_done). -/
def shrink_pair_run (w : List Char → Int) (avail gap : Int) (t0 t1 : List Char) :
    List Char × List Char :=
  shrink_pair w avail gap (t0.length + t1.length) t0 t1

/-- The single-pill truncation loop of generate_freq_image, with explicit
fuel: while the pill is over budget and the tag is longer than 3 characters,
shrink it. -/
def shrink_single (w : List Char → Int) (maxW : Int) : Nat → List Char → List Char
  | 0, t => t
  | Nat.succ fuel, t =>
    if pill_w w t ≤ maxW ∨ t.length ≤ 3 then t
    else shrink_single w maxW fuel (shrink1 t)

/-- The single-pill truncation loop run with enough fuel to reach its exit
condition. -/
def shrink_single_run (w : List Char → Int) (maxW : Int) (t : List Char) : List Char :=
  shrink_single w maxW t.length t

/-- The fixed-slot pill packer: five tags placed on the rows [0,1], [2,3] and
[4]; the Bool marks the distinguished (scene-colored) background, which the
code assigns to running pill indices 1 and 2, i.e. to the second pill of the
first row and the first pill of the second row.  The two-pill rows and the
single-pill row run their truncation loops against the same available width
(canvas width minus both 66px margins), with a horizontal gap of 24. -/
def pack_fixed_slot (w : List Char → Int) (avail : Int) (t0 t1 t2 t3 t4 : List Char) :
    List (List (List Char × Bool)) :=
  let p01 := shrink_pair_run w avail 24 t0 t1
  let p23 := shrink_pair_run w avail 24 t2 t3
  let s4 := shrink_single_run w avail t4
  [[(p01.1, false), (p01.2, true)], [(p23.1, true), (p23.2, false)], [(s4, false)]]

/-- Total width of a packed row: sum of the pill widths plus one gap between
consecutive pills. -/
def row_width (w : List Char → Int) (gap : Int) (row : List (List Char × Bool)) : Int :=
  (row.map (fun p => pill_w w p.1)).sum + gap * ((row.length : Int) - 1)

/-- Splitting on whitespace as python str.split(): runs of whitespace
separate words, no empty words are produced. -/
def split_words_aux (cur : List Char) : List Char → List (List Char)
  | [] => if cur = [] then [] else [cur.reverse]
  | c :: rest =>
    if c.isWhitespace then
      if cur = [] then split_words_aux [] rest
      else cur.reverse :: split_words_aux [] rest
    else split_words_aux (c :: cur) rest

/-- Words of a text, as python text.split(). -/
def splitWords (s : List Char) : List (List Char) := split_words_aux [] s

/-- Joining words with single spaces, as the python str.join with a single
space separator. -/
def joinSp (ws : List (List Char)) : List Char := List.intercalate [' '] ws

/-- The greedy word-wrap loop of draw_wrapped_text: the candidate line is the
current words plus the next word joined by spaces; it is accepted when its
measured width fits, otherwise a nonempty current line is closed and the word
starts a new line, while with an empty current line the word alone becomes an
overflowing line. -/
def wrap_loop (w : List Char → Int) (maxW : Int) (current : List (List Char)) :
    List (List Char) → List (List Char)
  | [] => if current = [] then [] else [joinSp current]
  | word :: rest =>
    if w (joinSp (current ++ [word])) ≤ maxW then
      wrap_loop w maxW (current ++ [word]) rest
    else if current = [] then
      word :: wrap_loop w maxW [] rest
    else
      joinSp current :: wrap_loop w maxW [word] rest

/-- The wrapped lines produced by draw_wrapped_text for a text. -/
def wrap_lines (w : List Char → Int) (maxW : Int) (s : List Char) : List (List Char) :=
  wrap_loop w maxW [] (splitWords s)

/-- Final cursor x of draw_text_with_tracking: the cursor advances by the
character advance width plus the tracking after every character, including
the last one. -/
def draw_text_with_tracking_x (adv : Char → Int) (tracking : Int) (x : Int) :
    List Char → Int
  | [] => x
  | c :: rest => draw_text_with_tracking_x adv tracking (x + adv c + tracking) rest

/-- The apostrophe character, written by code point. -/
def aposC : Char := Char.ofNat 39

/-- The apostrophe as a one-character string. -/
def aposStr : String := String.mk [aposC]

/-- The lowercased scene name of the orange scene. -/
def atriumLower : String := String.mk ['l', aposC, 'a', 't', 'r', 'i', 'u', 'm']

/-- Lowercasing a string character by character, as python str.lower() for
the characters appearing here. -/
def lower_str (s : String) : String := String.mk (s.data.map Char.toLower)

/-- File-safe scene name: lowercased, apostrophes removed (python
replace of the one-character pattern apostrophe by the empty string), spaces
replaced by underscores (python replace of the one-character pattern space
by underscore). -/
def scene_safe_name (s : String) : String :=
  String.mk ((((lower_str s).data.filter (fun c => c ≠ aposC)).map
    (fun c => if c = ' ' then '_' else c)))

/-- Output path resolution of generate_freq_image: an explicit path is
returned unchanged, otherwise a default built from the scene name. -/
def resolve_output_path (sceneName : String) : Option String → String
  | some p => p
  | none => "output_" ++ scene_safe_name sceneName ++ ".png"

/-- Errors of generate_freq_image that the layout claims are about: the
ValueError raised for a scene name other than the two recognized ones. -/
inductive GenError where
  | unknownScene : GenError
deriving DecidableEq

/-- Observable layout result of a successful generate_freq_image call: the
packed pill rows (display text and whether the pill carries the
distinguished scene-colored background), the wrapped radio-station lines,
and the returned output path. -/
structure GenResult where
  pillRows : List (List (List Char × Bool))
  radioLines : List (List Char)
  outputPath : String
deriving DecidableEq

/-- Layout semantics of generate_freq_image.  Fonts enter only through their
integer width functions (wRadio for the radio-station font, wTags for the
tags font) and the canvas only through its width.  An unknown scene name
raises; otherwise the radio-station name is wrapped against the canvas width
minus 200, the five tags are packed by the fixed-slot packer against the
canvas width minus both 66px margins (a tag list of any other length skips
the pill block entirely), and the output path is resolved.  Frequency, genre
and date drawing perform no layout decisions and are omitted; background and
font file loading are external assets outside the model. -/
def generate_freq_image (wRadio wTags : List Char → Int) (imgWidth : Int)
    (sceneName : String) (radioStationName : List Char)
    (tags : List (List Char)) (outputPath : Option String) :
    Except GenError GenResult :=
  if lower_str sceneName = atriumLower ∨ lower_str sceneName = "le refuge" then
    let radioLines := wrap_lines wRadio (imgWidth - 200) radioStationName
    let pillRows :=
      match tags with
      | [t0, t1, t2, t3, t4] => pack_fixed_slot wTags (imgWidth - 66 - 66) t0 t1 t2 t3 t4
      | _ => []
    Except.ok ⟨pillRows, radioLines, resolve_output_path sceneName outputPath⟩
  else Except.error GenError.unknownScene

/-- Modelled from the spec: the maxLines-capped variant of the line wrapper
(spec section 4.2) is part of this repository but missing from src/ (the spec
counts roughly 1191 lines against the 424 of the one provided file).  This
loop drops trailing words of the last kept line one whole word at a time
until the line followed by the ellipsis fits the width budget, down to the
floor of a single word.  Fuel stands in for the unbounded loop. -/
def drop_words_fit (w : List Char → Int) (maxW : Int) :
    Nat → List (List Char) → List (List Char)
  | 0, ws => ws
  | Nat.succ fuel, ws =>
    if w (joinSp ws ++ ellipsisL) ≤ maxW ∨ ws.length ≤ 1 then ws
    else drop_words_fit w maxW fuel ws.dropLast

/-- Modelled from the spec: the maxLines-capped wrapper (spec section 4.2),
missing from src/.  When the greedy wrap produces more lines than maxLines,
only the first maxLines lines are kept and the last kept line is re-formed
from a word-level truncation followed by the ellipsis marker. -/
def wrap_max_lines (w : List Char → Int) (maxW : Int) (maxLines : Nat)
    (s : List Char) : List (List Char) :=
  let ls := wrap_lines w maxW s
  if ls.length ≤ maxLines then ls
  else
    let kept := ls.take maxLines
    match kept.getLast? with
    | none => []
    | some lastL =>
      let ws := splitWords lastL
      kept.dropLast ++ [joinSp (drop_words_fit w maxW ws.length ws) ++ ellipsisL]

/-- Modelled from the spec: the pre-placement truncation of the greedy-flow
packing policy (spec section 4.4), missing from src/.  A label text is
truncated by replacing a trailing run of four characters with the ellipsis,
repeatedly, until the label alone fits the row width budget net of its own
padding.  Fuel stands in for the unbounded loop. -/
def pre_trunc (w : List Char → Int) (budget : Int) : Nat → List Char → List Char
  | 0, t => t
  | Nat.succ fuel, t =>
    if w t ≤ budget ∨ t.length ≤ 4 then t
    else pre_trunc w budget fuel (t.dropLast.dropLast.dropLast.dropLast ++ ellipsisL)

/-- Modelled from the spec: pre-placement truncation run with enough fuel. -/
def pre_trunc_run (w : List Char → Int) (budget : Int) (t : List Char) : List Char :=
  pre_trunc w budget t.length t

/-- Modelled from the spec: the greedy-flow row builder (spec section 4.4),
missing from src/.  Labels flow left to right; a label joins the current row
when the row width plus the gap plus its pill width stays within the row
budget, otherwise the row closes and the label starts a new row, unless the
row count has already reached maxLines, in which case packing stops and the
remaining labels are dropped. -/
def greedy_aux (width : List Char → Int) (rowMax gapX : Int) (maxLines : Nat)
    (current : List (List Char)) (curW : Int) (rowsDone : Nat) :
    List (List Char) → List (List (List Char))
  | [] => [current]
  | l :: rest =>
    if current = [] then
      greedy_aux width rowMax gapX maxLines [l] (width l) rowsDone rest
    else if curW + gapX + width l ≤ rowMax then
      greedy_aux width rowMax gapX maxLines (current ++ [l]) (curW + gapX + width l) rowsDone rest
    else if maxLines ≤ rowsDone + 1 then [current]
    else current :: greedy_aux width rowMax gapX maxLines [l] (width l) (rowsDone + 1) rest

/-- Modelled from the spec: greedy-flow packing of a label list (spec section
4.4), missing from src/.  An empty label list yields zero rows. -/
def greedy_flow (width : List Char → Int) (rowMax gapX : Int) (maxLines : Nat)
    (labels : List (List Char)) : List (List (List Char)) :=
  match labels with
  | [] => []
  | _ => greedy_aux width rowMax gapX maxLines [] 0 0 labels

/-- Modelled from the spec: a full greedy-flow run (spec sections 4.4 and 9),
missing from src/.  The process-wide random generator state s0 is re-seeded
with the explicit fixed seed 42 before the shuffle, so the shuffled order
depends only on the seed and the labels; every label is pre-truncated to fit
a row on its own before packing.  The generator is abstract: any state type,
any seeding function and any shuffle function. -/
def greedy_flow_run (σ : Type) (seedFn : Nat → σ)
    (shuffleFn : σ → List (List Char) → List (List Char) × σ) (_s0 : σ)
    (w : List Char → Int) (pad rowMax gapX : Int) (maxLines : Nat)
    (labels : List (List Char)) : List (List (List Char)) :=
  let s1 := seedFn 42
  let shuffled := (shuffleFn s1 labels).1
  let placed := shuffled.map (fun l => pre_trunc_run w (rowMax - 2 * pad) l)
  greedy_flow (fun l => w l + 2 * pad) rowMax gapX maxLines placed

/-- Decidable equality on Except results, for concrete evaluation. -/
instance exceptDecEq {ε α : Type} [DecidableEq ε] [DecidableEq α] :
    DecidableEq (Except ε α) := fun a b =>
  match a, b with
  | Except.ok x, Except.ok y =>
    if h : x = y then Decidable.isTrue (by rw [h])
    else Decidable.isFalse (fun hh => h (Except.ok.inj hh))
  | Except.error x, Except.error y =>
    if h : x = y then Decidable.isTrue (by rw [h])
    else Decidable.isFalse (fun hh => h (Except.error.inj hh))
  | Except.ok _, Except.error _ => Decidable.isFalse (fun hh => Except.noConfusion hh)
  | Except.error _, Except.ok _ => Decidable.isFalse (fun hh => Except.noConfusion hh)

/-- Exit condition of the two-pill truncation loop: either the pair fits,
or the second tag is at the three-character floor while the first is at the
floor or strictly narrower than the second. -/
def pair_done (w : List Char → Int) (avail gap : Int) (p : List Char × List Char) : Prop :=
  pill_w w p.1 + gap + pill_w w p.2 ≤ avail ∨
    (p.2.length ≤ 3 ∧ (p.1.length ≤ 3 ∨ pill_w w p.1 < pill_w w p.2))

theorem shrink1_length (s : List Char) : (shrink1 s).length = s.length - 1 := by
  simp only [shrink1]
  split
  · next h =>
    simp only [List.length_append, List.length_dropLast, ellipsisL, List.length_cons,
      List.length_nil]
    simp only [List.length_dropLast] at h
    omega
  · simp [List.length_dropLast]

theorem shrink_pair_done (w : List Char → Int) (avail gap : Int) :
    ∀ (fuel : Nat) (t0 t1 : List Char), t0.length + t1.length ≤ fuel →
      pair_done w avail gap (shrink_pair w avail gap fuel t0 t1) := by
  intro fuel
  induction fuel with
  | zero =>
    intro t0 t1 h
    simp only [shrink_pair]
    dsimp only [pair_done]
    exact Or.inr ⟨by omega, Or.inl (by omega)⟩
  | succ fuel ih =>
    intro t0 t1 h
    simp only [shrink_pair]
    by_cases hfit : pill_w w t0 + gap + pill_w w t1 ≤ avail
    · rw [if_pos hfit]; exact Or.inl hfit
    · rw [if_neg hfit]
      by_cases hc1 : pill_w w t1 ≤ pill_w w t0 ∧ 3 < t0.length
      · rw [if_pos hc1]
        apply ih
        have := shrink1_length t0
        omega
      · rw [if_neg hc1]
        by_cases hc2 : 3 < t1.length
        · rw [if_pos hc2]
          apply ih
          have := shrink1_length t1
          omega
        · rw [if_neg hc2]
          dsimp only [pair_done]
          refine Or.inr ⟨by omega, ?_⟩
          by_cases hw : pill_w w t1 ≤ pill_w w t0
          · have h3 : ¬(3 < t0.length) := fun h3 => hc1 ⟨hw, h3⟩
            exact Or.inl (by omega)
          · exact Or.inr (by omega)

theorem shrink_pair_fuel_mono (w : List Char → Int) (avail gap : Int) :
    ∀ (fuel fuel' : Nat) (t0 t1 : List Char), t0.length + t1.length ≤ fuel →
      fuel ≤ fuel' →
      shrink_pair w avail gap fuel' t0 t1 = shrink_pair w avail gap fuel t0 t1 := by
  intro fuel
  induction fuel with
  | zero =>
    intro fuel' t0 t1 h _
    cases fuel' with
    | zero => rfl
    | succ m =>
      simp only [shrink_pair]
      by_cases hfit : pill_w w t0 + gap + pill_w w t1 ≤ avail
      · rw [if_pos hfit]
      · rw [if_neg hfit]
        have hc1 : ¬(pill_w w t1 ≤ pill_w w t0 ∧ 3 < t0.length) := fun hh => by omega
        have hc2 : ¬(3 < t1.length) := by omega
        rw [if_neg hc1, if_neg hc2]
  | succ n ih =>
    intro fuel' t0 t1 h hle
    cases fuel' with
    | zero => exact absurd hle (by omega)
    | succ m =>
      simp only [shrink_pair]
      by_cases hfit : pill_w w t0 + gap + pill_w w t1 ≤ avail
      · rw [if_pos hfit, if_pos hfit]
      · rw [if_neg hfit, if_neg hfit]
        by_cases hc1 : pill_w w t1 ≤ pill_w w t0 ∧ 3 < t0.length
        · rw [if_pos hc1, if_pos hc1]
          have := shrink1_length t0
          exact ih m _ _ (by omega) (by omega)
        · rw [if_neg hc1, if_neg hc1]
          by_cases hc2 : 3 < t1.length
          · rw [if_pos hc2, if_pos hc2]
            have := shrink1_length t1
            exact ih m _ _ (by omega) (by omega)
          · rw [if_neg hc2, if_neg hc2]

theorem shrink_pair_run_done (w : List Char → Int) (avail gap : Int)
    (t0 t1 : List Char) : pair_done w avail gap (shrink_pair_run w avail gap t0 t1) :=
  shrink_pair_done w avail gap _ t0 t1 (Nat.le_refl _)

theorem shrink_pair_run_fuel (w : List Char → Int) (avail gap : Int)
    (t0 t1 : List Char) (k : Nat) :
    shrink_pair w avail gap (t0.length + t1.length + k) t0 t1 =
      shrink_pair_run w avail gap t0 t1 :=
  shrink_pair_fuel_mono w avail gap _ _ t0 t1 (Nat.le_refl _) (Nat.le_add_right _ _)

theorem shrink_pair_run_fit (w : List Char → Int) (avail gap : Int)
    (t0 t1 : List Char) (hfit : pill_w w t0 + gap + pill_w w t1 ≤ avail) :
    shrink_pair_run w avail gap t0 t1 = (t0, t1) := by
  rw [shrink_pair_run]
  cases h : t0.length + t1.length with
  | zero => rfl
  | succ m => simp only [shrink_pair]; rw [if_pos hfit]

theorem shrink_pair_run_step1 (w : List Char → Int) (avail gap : Int)
    (t0 t1 : List Char) (hfit : ¬(pill_w w t0 + gap + pill_w w t1 ≤ avail))
    (hc1 : pill_w w t1 ≤ pill_w w t0 ∧ 3 < t0.length) :
    shrink_pair_run w avail gap t0 t1 = shrink_pair_run w avail gap (shrink1 t0) t1 := by
  have hl := shrink1_length t0
  have hm : t0.length + t1.length = ((shrink1 t0).length + t1.length) + 1 := by omega
  rw [shrink_pair_run, hm]
  simp only [shrink_pair]
  rw [if_neg hfit, if_pos hc1]
  rfl

theorem shrink_pair_run_step2 (w : List Char → Int) (avail gap : Int)
    (t0 t1 : List Char) (hfit : ¬(pill_w w t0 + gap + pill_w w t1 ≤ avail))
    (hc1 : ¬(pill_w w t1 ≤ pill_w w t0 ∧ 3 < t0.length)) (hc2 : 3 < t1.length) :
    shrink_pair_run w avail gap t0 t1 = shrink_pair_run w avail gap t0 (shrink1 t1) := by
  have hl := shrink1_length t1
  have hm : t0.length + t1.length = (t0.length + (shrink1 t1).length) + 1 := by omega
  rw [shrink_pair_run, hm]
  simp only [shrink_pair]
  rw [if_neg hfit, if_neg hc1, if_pos hc2]
  rfl

theorem shrink_single_done (w : List Char → Int) (maxW : Int) :
    ∀ (fuel : Nat) (t : List Char), t.length ≤ fuel →
      pill_w w (shrink_single w maxW fuel t) ≤ maxW ∨
        (shrink_single w maxW fuel t).length ≤ 3 := by
  intro fuel
  induction fuel with
  | zero =>
    intro t h
    simp only [shrink_single]
    exact Or.inr (by omega)
  | succ fuel ih =>
    intro t h
    simp only [shrink_single]
    by_cases hg : pill_w w t ≤ maxW ∨ t.length ≤ 3
    · rw [if_pos hg]; exact hg
    · rw [if_neg hg]
      apply ih
      have := shrink1_length t
      omega

theorem shrink_single_fuel_mono (w : List Char → Int) (maxW : Int) :
    ∀ (fuel fuel' : Nat) (t : List Char), t.length ≤ fuel → fuel ≤ fuel' →
      shrink_single w maxW fuel' t = shrink_single w maxW fuel t := by
  intro fuel
  induction fuel with
  | zero =>
    intro fuel' t h _
    cases fuel' with
    | zero => rfl
    | succ m =>
      simp only [shrink_single]
      have hg : pill_w w t ≤ maxW ∨ t.length ≤ 3 := Or.inr (by omega)
      rw [if_pos hg]
  | succ n ih =>
    intro fuel' t h hle
    cases fuel' with
    | zero => exact absurd hle (by omega)
    | succ m =>
      simp only [shrink_single]
      by_cases hg : pill_w w t ≤ maxW ∨ t.length ≤ 3
      · rw [if_pos hg, if_pos hg]
      · rw [if_neg hg, if_neg hg]
        have := shrink1_length t
        exact ih m _ (by omega) (by omega)

theorem shrink_single_run_done (w : List Char → Int) (maxW : Int) (t : List Char) :
    pill_w w (shrink_single_run w maxW t) ≤ maxW ∨
      (shrink_single_run w maxW t).length ≤ 3 :=
  shrink_single_done w maxW _ t (Nat.le_refl _)

theorem shrink_single_run_fuel (w : List Char → Int) (maxW : Int)
    (t : List Char) (k : Nat) :
    shrink_single w maxW (t.length + k) t = shrink_single_run w maxW t :=
  shrink_single_fuel_mono w maxW _ _ t (Nat.le_refl _) (Nat.le_add_right _ _)

theorem joinSp_single (x : List Char) : joinSp [x] = x := by
  simp [joinSp, List.intercalate, List.intersperse]

theorem wrap_loop_fits (w : List Char → Int) (maxW : Int) :
    ∀ (ws current : List (List Char)), (∀ x ∈ ws, w x ≤ maxW) →
      (current = [] ∨ w (joinSp current) ≤ maxW) →
      ∀ line ∈ wrap_loop w maxW current ws, w line ≤ maxW := by
  intro ws
  induction ws with
  | nil =>
    intro current _ hcur line hline
    simp only [wrap_loop] at hline
    by_cases hc : current = []
    · rw [if_pos hc] at hline
      exact absurd hline (List.not_mem_nil line)
    · rw [if_neg hc] at hline
      rcases List.mem_singleton.mp hline with rfl
      exact hcur.resolve_left hc
  | cons word rest ih =>
    intro current hws hcur line hline
    simp only [wrap_loop] at hline
    by_cases h1 : w (joinSp (current ++ [word])) ≤ maxW
    · rw [if_pos h1] at hline
      exact ih (current ++ [word]) (fun x hx => hws x (List.mem_cons_of_mem _ hx))
        (Or.inr h1) line hline
    · rw [if_neg h1] at hline
      by_cases h2 : current = []
      · rw [if_pos h2] at hline
        rcases List.mem_cons.mp hline with rfl | hmem
        · exact hws line (List.mem_cons_self _ _)
        · exact ih [] (fun x hx => hws x (List.mem_cons_of_mem _ hx)) (Or.inl rfl)
            line hmem
      · rw [if_neg h2] at hline
        rcases List.mem_cons.mp hline with rfl | hmem
        · exact hcur.resolve_left h2
        · refine ih [word] (fun x hx => hws x (List.mem_cons_of_mem _ hx))
            (Or.inr ?_) line hmem
          rw [joinSp_single]
          exact hws word (List.mem_cons_self _ _)

theorem drop_words_fit_take (w : List Char → Int) (maxW : Int) :
    ∀ (fuel : Nat) (ws : List (List Char)),
      ∃ k, drop_words_fit w maxW fuel ws = ws.take k := by
  intro fuel
  induction fuel with
  | zero => intro ws; exact ⟨ws.length, (List.take_length ws).symm⟩
  | succ fuel ih =>
    intro ws
    simp only [drop_words_fit]
    by_cases hg : w (joinSp ws ++ ellipsisL) ≤ maxW ∨ ws.length ≤ 1
    · rw [if_pos hg]; exact ⟨ws.length, (List.take_length ws).symm⟩
    · rw [if_neg hg]
      obtain ⟨k, hk⟩ := ih ws.dropLast
      refine ⟨min k (ws.length - 1), ?_⟩
      rw [hk, List.dropLast_eq_take, List.take_take]

theorem drop_words_fit_spec (w : List Char → Int) (maxW : Int) :
    ∀ (fuel : Nat) (ws : List (List Char)), ws.length ≤ fuel →
      w (joinSp (drop_words_fit w maxW fuel ws) ++ ellipsisL) ≤ maxW ∨
        (drop_words_fit w maxW fuel ws).length ≤ 1 := by
  intro fuel
  induction fuel with
  | zero =>
    intro ws h
    simp only [drop_words_fit]
    exact Or.inr (by omega)
  | succ fuel ih =>
    intro ws h
    simp only [drop_words_fit]
    by_cases hg : w (joinSp ws ++ ellipsisL) ≤ maxW ∨ ws.length ≤ 1
    · rw [if_pos hg]; exact hg
    · rw [if_neg hg]
      apply ih
      have := List.length_dropLast ws
      omega

theorem greedy_aux_len (width : List Char → Int) (rowMax gapX : Int) (maxLines : Nat) :
    ∀ (rest current : List (List Char)) (curW : Int) (rowsDone : Nat),
      rowsDone + 1 ≤ maxLines →
      (greedy_aux width rowMax gapX maxLines current curW rowsDone rest).length +
        rowsDone ≤ maxLines := by
  intro rest
  induction rest with
  | nil =>
    intro current curW rowsDone h
    simp only [greedy_aux, List.length_singleton]
    omega
  | cons l rest ih =>
    intro current curW rowsDone h
    simp only [greedy_aux]
    by_cases h1 : current = []
    · rw [if_pos h1]; exact ih _ _ _ h
    · rw [if_neg h1]
      by_cases h2 : curW + gapX + width l ≤ rowMax
      · rw [if_pos h2]; exact ih _ _ _ h
      · rw [if_neg h2]
        by_cases h3 : maxLines ≤ rowsDone + 1
        · rw [if_pos h3]
          simp only [List.length_singleton]
          omega
        · rw [if_neg h3]
          have := ih [l] (width l) (rowsDone + 1) (by omega)
          simp only [List.length_cons]
          omega

theorem greedy_aux_join (width : List Char → Int) (rowMax gapX : Int) (maxLines : Nat) :
    ∀ (rest current : List (List Char)) (curW : Int) (rowsDone : Nat),
      ∃ k, (greedy_aux width rowMax gapX maxLines current curW rowsDone rest).flatten =
        current ++ rest.take k := by
  intro rest
  induction rest with
  | nil =>
    intro current curW rowsDone
    exact ⟨0, by simp [greedy_aux]⟩
  | cons l rest ih =>
    intro current curW rowsDone
    simp only [greedy_aux]
    by_cases h1 : current = []
    · rw [if_pos h1]
      obtain ⟨k, hk⟩ := ih [l] (width l) rowsDone
      exact ⟨k + 1, by rw [hk, h1]; simp [List.take_succ_cons]⟩
    · rw [if_neg h1]
      by_cases h2 : curW + gapX + width l ≤ rowMax
      · rw [if_pos h2]
        obtain ⟨k, hk⟩ := ih (current ++ [l]) (curW + gapX + width l) rowsDone
        exact ⟨k + 1, by rw [hk]; simp [List.take_succ_cons]⟩
      · rw [if_neg h2]
        by_cases h3 : maxLines ≤ rowsDone + 1
        · rw [if_pos h3]
          exact ⟨0, by simp⟩
        · rw [if_neg h3]
          obtain ⟨k, hk⟩ := ih [l] (width l) (rowsDone + 1)
          refine ⟨k + 1, ?_⟩
          simp only [List.flatten_cons, hk]
          simp [List.take_succ_cons]

theorem greedy_flow_len (width : List Char → Int) (rowMax gapX : Int)
    (maxLines : Nat) (labels : List (List Char)) (h : 0 < maxLines) :
    (greedy_flow width rowMax gapX maxLines labels).length ≤ maxLines := by
  cases labels with
  | nil => simp [greedy_flow]
  | cons l rest =>
    have := greedy_aux_len width rowMax gapX maxLines (l :: rest) [] 0 0 (by omega)
    simpa [greedy_flow] using this

theorem greedy_flow_join (width : List Char → Int) (rowMax gapX : Int)
    (maxLines : Nat) (labels : List (List Char)) :
    ∃ k, (greedy_flow width rowMax gapX maxLines labels).flatten = labels.take k := by
  cases labels with
  | nil => exact ⟨0, by simp [greedy_flow]⟩
  | cons l rest =>
    obtain ⟨k, hk⟩ := greedy_aux_join width rowMax gapX maxLines (l :: rest) [] 0 0
    exact ⟨k, by simpa [greedy_flow] using hk⟩

/-- A sample width function for concrete instances: every character 10 wide. -/
def sampleW : List Char → Int := fun s => 10 * s.length

/-- A sample advance-width function: every character advances by 10. -/
def adv10 : Char → Int := fun _ => 10

/-- A sample width function where the character W is much wider than the
others. -/
def wC3 : List Char → Int := fun s =>
  (s.map (fun c => if c = 'W' then (50 : Int) else 10)).sum

/-- A packed row whose truncation loop stopped without fitting: the single
tag is at the three-character floor, or the second tag of a pair is at the
floor while the first is at the floor or strictly narrower than the second. -/
def row_stuck (w : List Char → Int) (row : List (List Char × Bool)) : Prop :=
  match row with
  | [p] => p.1.length ≤ 3
  | [p, q] => q.1.length ≤ 3 ∧ (p.1.length ≤ 3 ∨ pill_w w p.1 < pill_w w q.1)
  | _ => False

theorem pack_rows_fit_or_floor (w : List Char → Int) (avail : Int)
    (t0 t1 t2 t3 t4 : List Char) :
    ∀ row ∈ pack_fixed_slot w avail t0 t1 t2 t3 t4,
      row_width w 24 row ≤ avail ∨ row_stuck w row := by
  intro row hrow
  simp only [pack_fixed_slot, List.mem_cons, List.mem_singleton,
    List.not_mem_nil, or_false] at hrow
  rcases hrow with rfl | rfl | rfl
  · rcases shrink_pair_run_done w avail 24 t0 t1 with hfit | ⟨h1, h2⟩
    · left
      simp only [row_width, List.map_cons, List.map_nil, List.sum_cons,
        List.sum_nil, List.length_cons, List.length_nil]
      omega
    · exact Or.inr ⟨h1, h2⟩
  · rcases shrink_pair_run_done w avail 24 t2 t3 with hfit | ⟨h1, h2⟩
    · left
      simp only [row_width, List.map_cons, List.map_nil, List.sum_cons,
        List.sum_nil, List.length_cons, List.length_nil]
      omega
    · exact Or.inr ⟨h1, h2⟩
  · rcases shrink_single_run_done w avail t4 with hfit | hfloor
    · left
      simp only [row_width, List.map_cons, List.map_nil, List.sum_cons,
        List.sum_nil, List.length_cons, List.length_nil]
      omega
    · exact Or.inr hfloor

/-- C1: for every successful call under the fixed-slot policy with exactly 5
labels, the packed output has exactly 3 rows with label counts [2,2,1] in
input order, and the pills at original positions 2 and 3 (1-indexed) carry
the distinguished scene-colored background while the others are plain,
regardless of label content. -/
theorem c1_fixed_slot_layout (wR wT : List Char → Int) (imgW : Int)
    (scene : String) (radio : List Char) (tags : List (List Char))
    (path : Option String) (r : GenResult)
    (hok : generate_freq_image wR wT imgW scene radio tags path = Except.ok r)
    (h5 : tags.length = 5) :
    r.pillRows.length = 3 ∧
    r.pillRows.map List.length = [2, 2, 1] ∧
    r.pillRows.map (fun row => row.map Prod.snd) =
      [[false, true], [true, false], [false]] ∧
    ∃ a b c d e, tags = [a, b, c, d, e] ∧
      r.pillRows = pack_fixed_slot wT (imgW - 66 - 66) a b c d e := by
  rcases tags with _ | ⟨a, _ | ⟨b, _ | ⟨c, _ | ⟨d, _ | ⟨e, _ | ⟨f, t⟩⟩⟩⟩⟩⟩ <;>
    simp only [List.length_cons, List.length_nil] at h5 <;> try omega
  simp only [generate_freq_image] at hok
  split at hok
  · simp only [Except.ok.injEq] at hok
    subst hok
    exact ⟨rfl, rfl, rfl, a, b, c, d, e, rfl, rfl⟩
  · simp at hok

/-- Witness for c1_fixed_slot_layout at a concrete call. -/
theorem c1_fixed_slot_layout_witness :
    (GenResult.mk [[(['a'], false), (['b'], true)], [(['c'], true), (['d'], false)],
        [(['e'], false)]] [] "output_le_refuge.png").pillRows.map
        (fun row => row.map Prod.snd) = [[false, true], [true, false], [false]] :=
  (c1_fixed_slot_layout sampleW sampleW 1080 "Le Refuge" []
    [['a'], ['b'], ['c'], ['d'], ['e']] none _ (by decide) (by decide)).2.2.1

/-- Counterexample to C2: with tags already at the three-character floor and
a narrow canvas, the packed first row measures 204 while the configured max
row width is 100, so a row in a packing result can exceed the budget. -/
theorem c2_row_overflow_cex :
    generate_freq_image sampleW sampleW 232 "Le Refuge" []
        [['a', 'b', 'c'], ['a', 'b', 'c'], ['c'], ['d'], ['e']] none =
      Except.ok ⟨[[(['a', 'b', 'c'], false), (['a', 'b', 'c'], true)],
        [(['c'], true), (['d'], false)], [(['e'], false)]], [],
        "output_le_refuge.png"⟩ ∧
    row_width sampleW 24 [(['a', 'b', 'c'], false), (['a', 'b', 'c'], true)] = 204 ∧
    ¬((204 : Int) ≤ 232 - 66 - 66) := by decide

/-- C2 amended: every row of a packing result has total width, sum of pill
widths plus one inter-pill gap, at most the configured max row width (canvas
width minus both 66px margins), unless its truncation loop stopped at the
floor: the single tag at the three-character floor, or the second tag of a
pair at the floor with the first at the floor or strictly narrower. -/
theorem c2_rows_fit_or_floor (wR wT : List Char → Int) (imgW : Int)
    (scene : String) (radio : List Char) (tags : List (List Char))
    (path : Option String) (r : GenResult)
    (hok : generate_freq_image wR wT imgW scene radio tags path = Except.ok r) :
    ∀ row ∈ r.pillRows, row_width wT 24 row ≤ imgW - 66 - 66 ∨ row_stuck wT row := by
  simp only [generate_freq_image] at hok
  split at hok
  · simp only [Except.ok.injEq] at hok
    subst hok
    rcases tags with _ | ⟨a, _ | ⟨b, _ | ⟨c, _ | ⟨d, _ | ⟨e, _ | ⟨f, t⟩⟩⟩⟩⟩⟩ <;>
      first
        | exact pack_rows_fit_or_floor wT (imgW - 66 - 66) _ _ _ _ _
        | (intro row hrow; exact absurd hrow (List.not_mem_nil row))
  · simp at hok

/-- Witness for c2_rows_fit_or_floor at a concrete call and row. -/
theorem c2_rows_fit_or_floor_witness :
    row_width sampleW 24 [(['a', 'b', 'c'], false), (['a', 'b', 'c'], true)] ≤
        232 - 66 - 66 ∨
      row_stuck sampleW [(['a', 'b', 'c'], false), (['a', 'b', 'c'], true)] :=
  c2_rows_fit_or_floor sampleW sampleW 232 "Le Refuge" []
    [['a', 'b', 'c'], ['a', 'b', 'c'], ['c'], ['d'], ['e']] none
    (GenResult.mk [[(['a', 'b', 'c'], false), (['a', 'b', 'c'], true)],
      [(['c'], true), (['d'], false)], [(['e'], false)]] [] "output_le_refuge.png")
    (by decide) _ (by decide)

/-- Counterexample to C3: when the second tag is wider but already at the
three-character floor while the first is narrower and above the floor, the
loop stops immediately with the pair still over budget, although the claim
says it repeats until the pair fits or both tags are at the floor. -/
theorem c3_stop_above_floor_cex :
    shrink_pair_run wC3 200 24 ['i', 'i', 'i', 'i', 'i', 'i', 'i', 'i']
        ['W', 'W', 'W'] =
      (['i', 'i', 'i', 'i', 'i', 'i', 'i', 'i'], ['W', 'W', 'W']) ∧
    ¬(pill_w wC3 ['i', 'i', 'i', 'i', 'i', 'i', 'i', 'i'] + 24 +
        pill_w wC3 ['W', 'W', 'W'] ≤ 200) ∧
    3 < (['i', 'i', 'i', 'i', 'i', 'i', 'i', 'i'] : List Char).length := by decide

/-- C3 amended: in a fixed-slot two-pill row over budget, a step shrinks the
first tag when it is at least as wide as the second (so equal widths shrink
the first) and above the three-character floor, otherwise shrinks the second
when it is above the floor; the loop repeats until the pair fits or no tag
may be shrunk, which can leave the first tag above the floor when the second
is strictly wider but already at the floor. -/
theorem c3_shrink_pair_amended (w : List Char → Int) (avail gap : Int)
    (t0 t1 : List Char) :
    (pill_w w t0 + gap + pill_w w t1 ≤ avail →
      shrink_pair_run w avail gap t0 t1 = (t0, t1)) ∧
    (¬(pill_w w t0 + gap + pill_w w t1 ≤ avail) →
      pill_w w t1 ≤ pill_w w t0 → 3 < t0.length →
      shrink_pair_run w avail gap t0 t1 =
        shrink_pair_run w avail gap (shrink1 t0) t1) ∧
    (¬(pill_w w t0 + gap + pill_w w t1 ≤ avail) →
      ¬(pill_w w t1 ≤ pill_w w t0 ∧ 3 < t0.length) → 3 < t1.length →
      shrink_pair_run w avail gap t0 t1 =
        shrink_pair_run w avail gap t0 (shrink1 t1)) ∧
    (¬(pill_w w (shrink_pair_run w avail gap t0 t1).1 + gap +
        pill_w w (shrink_pair_run w avail gap t0 t1).2 ≤ avail) →
      (shrink_pair_run w avail gap t0 t1).2.length ≤ 3 ∧
        ((shrink_pair_run w avail gap t0 t1).1.length ≤ 3 ∨
          pill_w w (shrink_pair_run w avail gap t0 t1).1 <
            pill_w w (shrink_pair_run w avail gap t0 t1).2)) :=
  ⟨shrink_pair_run_fit w avail gap t0 t1,
   fun hfit hw hl => shrink_pair_run_step1 w avail gap t0 t1 hfit ⟨hw, hl⟩,
   shrink_pair_run_step2 w avail gap t0 t1,
   fun h => (shrink_pair_run_done w avail gap t0 t1).resolve_left h⟩

/-- Witness for c3_shrink_pair_amended: a concrete over-budget pair where the
first tag is at least as wide, so the first tag is shrunk. -/
theorem c3_shrink_pair_amended_witness :
    shrink_pair_run sampleW 100 24 ['a', 'a', 'a', 'a', 'a'] ['b', 'b', 'b'] =
      shrink_pair_run sampleW 100 24 (shrink1 ['a', 'a', 'a', 'a', 'a'])
        ['b', 'b', 'b'] :=
  (c3_shrink_pair_amended sampleW 100 24 ['a', 'a', 'a', 'a', 'a']
    ['b', 'b', 'b']).2.1 (by decide) (by decide) (by decide)

/-- C4: when the max width is at least the measured width of every single
word, the greedy word-wrap produces lines whose measured width is at most
the max width; moreover a word is accepted into the current line exactly
when the candidate line including it measures within the budget, otherwise a
nonempty current line closes and the word starts a new line, and with an
empty current line the word alone becomes its own overflowing line. -/
theorem c4_wrap_fits (w : List Char → Int) (maxW : Int) (s : List Char)
    (h : ∀ word ∈ splitWords s, w word ≤ maxW) :
    (∀ line ∈ wrap_lines w maxW s, w line ≤ maxW) ∧
    (∀ (current : List (List Char)) (word : List Char) (rest : List (List Char)),
      wrap_loop w maxW current (word :: rest) =
        if w (joinSp (current ++ [word])) ≤ maxW then
          wrap_loop w maxW (current ++ [word]) rest
        else if current = [] then word :: wrap_loop w maxW [] rest
        else joinSp current :: wrap_loop w maxW [word] rest) :=
  ⟨wrap_loop_fits w maxW (splitWords s) [] h (Or.inl rfl), fun _ _ _ => rfl⟩

/-- Witness for c4_wrap_fits at a concrete text and budget. -/
theorem c4_wrap_fits_witness : sampleW ['a', 'b'] ≤ 30 :=
  (c4_wrap_fits sampleW 30 ['a', 'b', ' ', 'c', 'd'] (by decide)).1
    ['a', 'b'] (by decide)

/-- C5 (modelled from the spec): when the wrap produces more lines than the
maxLines cap, only the first maxLines lines are kept, the last kept line has
trailing words dropped one whole word at a time (its retained words are a
prefix of its word list) until the line plus the ellipsis fits the budget or
the one-word floor is reached, and the ellipsis marker is appended to it. -/
theorem c5_wrap_max_lines_spec (w : List Char → Int) (maxW : Int)
    (maxLines : Nat) (s : List Char)
    (h1 : maxLines < (wrap_lines w maxW s).length) (h2 : 0 < maxLines) :
    ∃ lastL ws0 k,
      ((wrap_lines w maxW s).take maxLines).getLast? = some lastL ∧
      ws0 = (splitWords lastL).take k ∧
      wrap_max_lines w maxW maxLines s =
        ((wrap_lines w maxW s).take maxLines).dropLast ++
          [joinSp ws0 ++ ellipsisL] ∧
      (w (joinSp ws0 ++ ellipsisL) ≤ maxW ∨ ws0.length ≤ 1) ∧
      (wrap_max_lines w maxW maxLines s).length = maxLines := by
  have hkeptlen : ((wrap_lines w maxW s).take maxLines).length = maxLines := by
    rw [List.length_take]
    omega
  have hne : (wrap_lines w maxW s).take maxLines ≠ [] := by
    intro hh
    rw [hh] at hkeptlen
    simp at hkeptlen
    omega
  obtain ⟨lastL, hlast⟩ : ∃ lastL,
      ((wrap_lines w maxW s).take maxLines).getLast? = some lastL :=
    ⟨((wrap_lines w maxW s).take maxLines).getLast hne,
      List.getLast?_eq_getLast _ hne⟩
  have heq : wrap_max_lines w maxW maxLines s =
      ((wrap_lines w maxW s).take maxLines).dropLast ++
        [joinSp (drop_words_fit w maxW (splitWords lastL).length
          (splitWords lastL)) ++ ellipsisL] := by
    simp only [wrap_max_lines]
    rw [if_neg (by omega : ¬((wrap_lines w maxW s).length ≤ maxLines)), hlast]
  obtain ⟨k, hk⟩ :=
    drop_words_fit_take w maxW (splitWords lastL).length (splitWords lastL)
  refine ⟨lastL,
    drop_words_fit w maxW (splitWords lastL).length (splitWords lastL), k,
    hlast, hk, heq,
    drop_words_fit_spec w maxW (splitWords lastL).length (splitWords lastL)
      (Nat.le_refl _), ?_⟩
  rw [heq]
  simp only [List.length_append, List.length_dropLast, hkeptlen,
    List.length_singleton]
  omega

/-- Witness for c5_wrap_max_lines_spec at a concrete wrap that overflows one
line. -/
theorem c5_wrap_max_lines_spec_witness :
    ∃ lastL ws0 k,
      ((wrap_lines sampleW 25 ['a', 'a', ' ', 'b', 'b']).take 1).getLast? =
        some lastL ∧
      ws0 = (splitWords lastL).take k ∧
      wrap_max_lines sampleW 25 1 ['a', 'a', ' ', 'b', 'b'] =
        ((wrap_lines sampleW 25 ['a', 'a', ' ', 'b', 'b']).take 1).dropLast ++
          [joinSp ws0 ++ ellipsisL] ∧
      (sampleW (joinSp ws0 ++ ellipsisL) ≤ 25 ∨ ws0.length ≤ 1) ∧
      (wrap_max_lines sampleW 25 1 ['a', 'a', ' ', 'b', 'b']).length = 1 :=
  c5_wrap_max_lines_spec sampleW 25 1 ['a', 'a', ' ', 'b', 'b']
    (by decide) (by decide)

/-- Counterexample to C6: with every advance width 10 and tracking 5, the
wrapper accepts the text as a single line within a budget of 30, although
the claimed layout width, sum of advances plus tracking between characters,
is 40 and exceeds the budget; the width the code uses is the bounding-box
width, 30, with no tracking term. -/
theorem c6_tracking_width_cex :
    wrap_lines sampleW 30 ['a', ' ', 'b'] = [['a', ' ', 'b']] ∧
    (['a', ' ', 'b'].map adv10).sum +
      5 * (((['a', ' ', 'b'].length : Nat) : Int) - 1) = 40 ∧
    ¬((40 : Int) ≤ 30) ∧
    sampleW ['a', ' ', 'b'] = 30 := by decide

/-- Helper: closed form of the tracked drawing cursor. -/
theorem draw_tracking_formula (adv : Char → Int) (tracking : Int) :
    ∀ (text : List Char) (x : Int),
      draw_text_with_tracking_x adv tracking x text =
        x + (text.map adv).sum + tracking * text.length := by
  intro text
  induction text with
  | nil => intro x; simp [draw_text_with_tracking_x]
  | cons c cs ih =>
    intro x
    simp only [draw_text_with_tracking_x, List.map_cons, List.sum_cons,
      List.length_cons]
    rw [ih]
    push_cast
    ring

/-- C6 amended: the drawing routine advances its cursor by the advance width
plus the tracking after every character including the last, so the final
cursor is the start plus the sum of advances plus tracking times the full
character count, while the width used for the wrapping decision is the
measured bounding-box width of the candidate line with no tracking term. -/
theorem c6_tracking_amended (adv : Char → Int) (tracking x : Int)
    (text : List Char) :
    draw_text_with_tracking_x adv tracking x text =
      x + (text.map adv).sum + tracking * text.length ∧
    ∀ (w : List Char → Int) (maxW : Int) (current : List (List Char))
      (word : List Char) (rest : List (List Char)),
      wrap_loop w maxW current (word :: rest) =
        if w (joinSp (current ++ [word])) ≤ maxW then
          wrap_loop w maxW (current ++ [word]) rest
        else if current = [] then word :: wrap_loop w maxW [] rest
        else joinSp current :: wrap_loop w maxW [word] rest :=
  ⟨draw_tracking_formula adv tracking text x, fun _ _ _ _ _ => rfl⟩

/-- Counterexample to C7: a call with only four tags does not raise; it
produces a result with no pill rows and still returns an output path. -/
theorem c7_no_error_on_four_tags_cex :
    generate_freq_image sampleW sampleW 1080 "Le Refuge" []
        [['a'], ['b'], ['c'], ['d']] none =
      Except.ok ⟨[], [], "output_le_refuge.png"⟩ := by decide

/-- C7 amended: for a recognized scene, a tag list whose length is not
exactly 5 does not raise; the pill block is skipped entirely and the call
still succeeds with an image layout and output path. -/
theorem c7_missing_tags_skips_pills (wR wT : List Char → Int) (imgW : Int)
    (scene : String) (radio : List Char) (tags : List (List Char))
    (path : Option String)
    (hscene : lower_str scene = atriumLower ∨ lower_str scene = "le refuge")
    (h5 : tags.length ≠ 5) :
    generate_freq_image wR wT imgW scene radio tags path =
      Except.ok ⟨[], wrap_lines wR (imgW - 200) radio,
        resolve_output_path scene path⟩ := by
  simp only [generate_freq_image, if_pos hscene]
  rcases tags with _ | ⟨a, _ | ⟨b, _ | ⟨c, _ | ⟨d, _ | ⟨e, _ | ⟨f, t⟩⟩⟩⟩⟩⟩ <;>
    first
      | rfl
      | exact absurd rfl h5

/-- Witness for c7_missing_tags_skips_pills at a concrete one-tag call. -/
theorem c7_missing_tags_skips_pills_witness :
    generate_freq_image sampleW sampleW 1080 "Le Refuge" [] [['a']] none =
      Except.ok ⟨[], wrap_lines sampleW (1080 - 200) [],
        resolve_output_path "Le Refuge" none⟩ :=
  c7_missing_tags_skips_pills sampleW sampleW 1080 "Le Refuge" [] [['a']] none
    (Or.inr (by decide)) (by decide)

/-- C8 (modelled from the spec): the greedy-flow policy re-seeds the
process-wide random generator with the explicit fixed seed 42 before
shuffling, so two runs from any two prior generator states produce identical
row assignments; the number of rows never exceeds maxLines, and the packed
labels are an initial segment of the shuffled, pre-truncated sequence, the
remaining labels being silently dropped. -/
theorem c8_greedy_flow_deterministic (σ : Type) (seedFn : Nat → σ)
    (shuffleFn : σ → List (List Char) → List (List Char) × σ) (s1 s2 : σ)
    (w : List Char → Int) (pad rowMax gapX : Int) (maxLines : Nat)
    (labels : List (List Char)) (hml : 0 < maxLines) :
    greedy_flow_run σ seedFn shuffleFn s1 w pad rowMax gapX maxLines labels =
      greedy_flow_run σ seedFn shuffleFn s2 w pad rowMax gapX maxLines labels ∧
    (greedy_flow_run σ seedFn shuffleFn s1 w pad rowMax gapX maxLines
      labels).length ≤ maxLines ∧
    ∃ k, (greedy_flow_run σ seedFn shuffleFn s1 w pad rowMax gapX maxLines
        labels).flatten =
      ((shuffleFn (seedFn 42) labels).1.map
        (fun l => pre_trunc_run w (rowMax - 2 * pad) l)).take k :=
  ⟨rfl,
   greedy_flow_len (fun l => w l + 2 * pad) rowMax gapX maxLines _ hml,
   greedy_flow_join (fun l => w l + 2 * pad) rowMax gapX maxLines _⟩

/-- Witness for c8_greedy_flow_deterministic with a concrete reversing
shuffle and two different prior generator states. -/
theorem c8_greedy_flow_deterministic_witness :
    greedy_flow_run Nat (fun n => n) (fun s l => (l.reverse, s)) 0 sampleW
        30 200 24 2 [['a'], ['b'], ['c']] =
      greedy_flow_run Nat (fun n => n) (fun s l => (l.reverse, s)) 1 sampleW
        30 200 24 2 [['a'], ['b'], ['c']] ∧
    (greedy_flow_run Nat (fun n => n) (fun s l => (l.reverse, s)) 0 sampleW
      30 200 24 2 [['a'], ['b'], ['c']]).length ≤ 2 ∧
    ∃ k, (greedy_flow_run Nat (fun n => n) (fun s l => (l.reverse, s)) 0 sampleW
        30 200 24 2 [['a'], ['b'], ['c']]).flatten =
      (((fun (s : Nat) (l : List (List Char)) => (l.reverse, s)) ((fun (n : Nat) => n) 42)
          [['a'], ['b'], ['c']]).1.map
        (fun l => pre_trunc_run sampleW (200 - 2 * 30) l)).take k :=
  c8_greedy_flow_deterministic Nat (fun n => n) (fun s l => (l.reverse, s)) 0 1
    sampleW 30 200 24 2 [['a'], ['b'], ['c']] (by decide)

/-- C9: the truncation loops always terminate with a layout: run with fuel
equal to the tag lengths each loop has stabilized (any extra fuel changes
nothing), the two-pill loop result satisfies its exit condition, the
single-pill loop result fits or is at the floor, and each shrinking step on
a tag above the floor strictly decreases its length by exactly one. -/
theorem c9_truncation_terminates (w : List Char → Int) (avail gap maxW : Int)
    (t0 t1 t : List Char) :
    (∀ k, shrink_pair w avail gap (t0.length + t1.length + k) t0 t1 =
      shrink_pair_run w avail gap t0 t1) ∧
    pair_done w avail gap (shrink_pair_run w avail gap t0 t1) ∧
    (∀ k, shrink_single w maxW (t.length + k) t = shrink_single_run w maxW t) ∧
    (pill_w w (shrink_single_run w maxW t) ≤ maxW ∨
      (shrink_single_run w maxW t).length ≤ 3) ∧
    (∀ s : List Char, 3 < s.length → (shrink1 s).length + 1 = s.length) :=
  ⟨shrink_pair_run_fuel w avail gap t0 t1,
   shrink_pair_run_done w avail gap t0 t1,
   shrink_single_run_fuel w maxW t,
   shrink_single_run_done w maxW t,
   fun s hs => by have := shrink1_length s; omega⟩

/-- Witness for c9_truncation_terminates: a shrinking step on a concrete
five-character tag decreases its length by one. -/
theorem c9_truncation_terminates_witness :
    (shrink1 ['a', 'b', 'c', 'd', 'e']).length + 1 =
      (['a', 'b', 'c', 'd', 'e'] : List Char).length :=
  (c9_truncation_terminates sampleW 0 0 0 [] [] []).2.2.2.2
    ['a', 'b', 'c', 'd', 'e'] (by decide)

/-- C10: a successful call with no output path returns the default path,
the word output followed by the scene name lowercased with apostrophes
removed and spaces replaced by underscores and the png extension, while a
successful call with an explicit output path returns that path unchanged. -/
theorem c10_output_path (wR wT : List Char → Int) (imgW : Int) (scene : String)
    (radio : List Char) (tags : List (List Char)) :
    (∀ r, generate_freq_image wR wT imgW scene radio tags none = Except.ok r →
      r.outputPath = "output_" ++ scene_safe_name scene ++ ".png") ∧
    (∀ p r, generate_freq_image wR wT imgW scene radio tags (some p) =
        Except.ok r → r.outputPath = p) := by
  constructor
  · intro r hok
    simp only [generate_freq_image] at hok
    split at hok
    · simp only [Except.ok.injEq] at hok
      subst hok
      rfl
    · simp at hok
  · intro p r hok
    simp only [generate_freq_image] at hok
    split at hok
    · simp only [Except.ok.injEq] at hok
      subst hok
      rfl
    · simp at hok

/-- Witness for c10_output_path at a concrete call without an explicit
output path. -/
theorem c10_output_path_witness :
    (GenResult.mk [] [] "output_le_refuge.png").outputPath =
      "output_" ++ scene_safe_name "Le Refuge" ++ ".png" :=
  (c10_output_path sampleW sampleW 1080 "Le Refuge" [] []).1
    (GenResult.mk [] [] "output_le_refuge.png") (by decide)
